import Mathlib

/-!
Verification development for the fibdrv character-device driver
(src/fibdrv.c).  The driver computes Fibonacci numbers two ways: a
fast-doubling scalar engine over 64-bit machine words
(`fib_sequence`) and an arbitrary-precision decimal engine
(`add_string`, `reverse_string`, `fib_sequence_string`) that builds
the digit string of F(k) in a kmalloc-allocated table of
`struct strbuf { char fib[128]; }` slots, plus an llseek handler
(`fib_device_lseek`) that clamps the requested position.

The embedding below models C memory faithfully where it matters:

* a strbuf slot is a `List Nat` of byte values (the C `char fib[128]`
  array); the slot contents kmalloc returns are NOT zeroed, so the
  table builder is parameterised by the initial memory contents;
* C string length (`strlen`) is `cstr`, the longest prefix of nonzero
  bytes;
* `char` is signed on the target (x86), so a byte `b` read into an
  `int` expression has value `sbyte b`, and storing an `int` back
  into a `char` truncates (`toByte`);
* machine integer arithmetic of the scalar engine is modelled in
  `ZMod (2 ^ 64)` (wraparound two-complement semantics of the
  64-bit `long long` operations);
* `List.set` models a store to index `i`; a store beyond the end of
  the list is dropped, which is exactly the place where the C code
  would write out of bounds (those spots are analysed separately).
-/

set_option maxRecDepth 40000

namespace Fibdrv

/-- The driver source defines `#define MAX_LENGTH 500`. -/
def MAX_LENGTH : Int := 500

/-- Capacity of one table slot: `struct strbuf { char fib[128]; }`. -/
def strbufCapacity : Nat := 128

/-! ### Byte-level helpers (C `char` semantics) -/

/-- Value of a byte when read through the (signed, x86) C `char`:
bytes at and above 128 are negative. -/
def sbyte (b : Nat) : Int := if b < 128 then (b : Int) else (b : Int) - 256

/-- Storing an `int` into a C `char`: truncation to the low byte. -/
def toByte (v : Int) : Nat := (v % 256).toNat

/-- The string that `strlen`/string reads see in a byte buffer: the
longest prefix of nonzero bytes (up to the first NUL terminator). -/
def cstr (s : List Nat) : List Nat := s.takeWhile (fun b => b != 0)

/-! ### fib_sequence: the fast-doubling scalar engine (lines 36-56)

```c
static long long fib_sequence(long long k)
{
    if (k < 2)
        return k;
    long long a = 0, b = 1;
    int len_zero = __builtin_clzll(k), counter = 64 - len_zero;
    k <<= len_zero;
    for (; counter; k <<= 1, counter--) {
        long long t1 = a * (2 * b - a);
        long long t2 = b * b + a * a;
        a = t1, b = t2;
        if (k & 1ULL << 63) {
            t1 = a + b;
            a = b;
            b = t1;
        }
    }
    return a;
}
```

The loop consumes the bits of `k` from the most significant set bit
down to bit 0 (the `clzll`/shift prologue aligns the top set bit of
`k` with bit 63 and the loop re-tests bit 63 after each shift); all
`long long` arithmetic wraps modulo 2^64.  -/

/-- One iteration of the doubling loop, on the accumulator pair
`(a, b)`, for the current bit of `k`. -/
def fibStep (p : ZMod (2 ^ 64) × ZMod (2 ^ 64)) (bit : Bool) :
    ZMod (2 ^ 64) × ZMod (2 ^ 64) :=
  let t1 := p.1 * (2 * p.2 - p.1)
  let t2 := p.2 * p.2 + p.1 * p.1
  if bit then (t2, t1 + t2) else (t1, t2)

/-- Little-endian bits of `k`, at most `f` of them (the C code works
on a 64-bit word, so it is invoked with `f = 64`). -/
def toBits : Nat → Nat → List Bool
  | 0, _ => []
  | f + 1, k => if k = 0 then [] else decide (k % 2 = 1) :: toBits f (k / 2)

/-- The fast-doubling engine: `fib_sequence` from the source, with the
64-bit wraparound made explicit in the result type. -/
def fib_sequence (k : Nat) : ZMod (2 ^ 64) :=
  if k < 2 then (k : ZMod (2 ^ 64))
  else (((toBits 64 k).reverse).foldl fibStep (0, 1)).1

/-! ### add_string: the big-decimal adder (lines 59-91)

```c
static void add_string(char *x, char *y, char *next)
{
    int x_size = strlen(x), y_size = strlen(y);
    int i, carry = 0;
    int sum;
    if (x_size >= y_size) {
        for (i = 0; i < y_size; i++) {
            sum = (x[i] - '0') + (y[i] - '0') + carry;
            next[i] = '0' + sum % 10;
            carry = sum / 10;
        }
        for (i = y_size; i < x_size; i++) { ... }
    } else { /* symmetric */ }
    if (carry) {
        next[i] = '1';
    }
    next[++i] = '\0';
}
```

Note the final two statements: when no carry is left, the terminator
is still written at index `max + 1`, so index `max` of the output
buffer keeps whatever byte was there before the call. -/

/-- The tail loop of `add_string`: only the longer operand is left. -/
def addTail : List Nat → Int → List Nat × Int
  | [], c => ([], c)
  | b :: l, c =>
    let sum := (sbyte b - 48) + c
    let r := addTail l (Int.tdiv sum 10)
    (toByte (48 + Int.tmod sum 10) :: r.1, r.2)

/-- The paired loop of `add_string` followed by the tail loop.  The
caller always passes the longer buffer first (that is what the
`x_size >= y_size` branch of the C code guarantees), so the case of a
first argument shorter than the second is never reached. -/
def addLoop : List Nat → List Nat → Int → List Nat × Int
  | a :: l, b :: m, c =>
    let sum := (sbyte a - 48) + (sbyte b - 48) + c
    let r := addLoop l m (Int.tdiv sum 10)
    (toByte (48 + Int.tmod sum 10) :: r.1, r.2)
  | l, [], c => addTail l c
  | [], _ :: _, c => ([], c)

/-- `add_string x y next`: the contents of the output slot `next`
after the call.  `x`, `y`, `next` are full slot contents; the digit
strings are read up to their NUL terminators, the sum digits overwrite
the prefix of `next`, a final `'1'` is written only when a carry is
left, and the NUL is written at index `max + 1` unconditionally
(`next[++i]` in the source). -/
def add_string (x y next : List Nat) : List Nat :=
  let xs := cstr x
  let ys := cstr y
  let r := if ys.length ≤ xs.length then addLoop xs ys 0 else addLoop ys xs 0
  let i := max xs.length ys.length
  let next1 := r.1 ++ next.drop r.1.length
  let next2 := if r.2 ≠ 0 then next1.set i 49 else next1
  next2.set (i + 1) 0

/-! ### reverse_string: the output formatter (lines 93-100)

```c
void reverse_string(char *str, size_t size)
{
    for (int i = 0; i < size - i; i++) {
        str[i] = str[i] ^ str[size - i];
        str[size - i] = str[i] ^ str[size - i];
        str[i] = str[i] ^ str[size - i];
    }
}
```

The `size` parameter is used as the index of the last character: the
single call site passes `strlen(...) - 1`.  The XOR swap is modelled
statement by statement. -/

/-- The three XOR assignments of the loop body, swapping `str[i]` and
`str[j]` (where `j = size - i`). -/
def swapXor (l : List Nat) (i j : Nat) : List Nat :=
  let l1 := l.set i (l.getD i 0 ^^^ l.getD j 0)
  let l2 := l1.set j (l1.getD i 0 ^^^ l1.getD j 0)
  l2.set i (l2.getD i 0 ^^^ l2.getD j 0)

/-- The loop of `reverse_string`, with an explicit fuel argument; the
loop runs while `i < size - i` (size_t arithmetic, hence `Nat`
subtraction), so `size + 1` units of fuel always suffice. -/
def revLoop (size : Nat) : Nat → List Nat → Nat → List Nat
  | 0, l, _ => l
  | fuel + 1, l, i =>
    if i < size - i then revLoop size fuel (swapXor l i (size - i)) (i + 1) else l

/-- `reverse_string str size` from the source (`size` = index of the
last character to include in the reversal). -/
def reverse_string (l : List Nat) (size : Nat) : List Nat :=
  revLoop size (size + 1) l 0

/-! ### fib_sequence_string: the table builder (lines 102-114)

```c
static long long fib_sequence_string(long long k, char *buf)
{
    struct strbuf *res = kmalloc(sizeof(struct strbuf) * (k + 1), GFP_KERNEL);
    strncpy(res[0].fib, "0", 2);
    strncpy(res[1].fib, "1", 2);
    for (int i = 2; i <= k; i++) {
        add_string(res[i - 1].fib, res[i - 2].fib, res[i].fib);
    }
    size_t size = strlen(res[k].fib);
    reverse_string(res[k].fib, size - 1);
    __copy_to_user(buf, res[k].fib, size + 1);
    return size;
}
```

kmalloc does not zero the allocation, so the model takes the initial
contents of the `k + 1` slots as a parameter `m`.  There is no special
case for `k < 2` and no capacity or error check of any kind.  For
`k = 0` the `strncpy` to `res[1]` is a store past the end of the
one-slot allocation (`List.set` drops it; the write trace is modelled
separately by `slotWrites`). -/

/-- The table memory: one byte list per slot. -/
def Mem : Type := List (List Nat)

/-- `strncpy(res[j].fib, "c", 2)`: writes the character and its NUL
terminator into the first two bytes of the slot, rest unchanged. -/
def strncpySeed (dst : List Nat) (c : Nat) : List Nat := c :: 0 :: dst.drop 2

/-- The two seeding strncpy calls for slots 0 and 1. -/
def seedTable (m : Mem) : Mem :=
  let m0 := List.set m 0 (strncpySeed (List.getD m 0 []) 48)
  List.set m0 1 (strncpySeed (List.getD m0 1 []) 49)

/-- The `for (int i = 2; i <= k; i++)` loop: `n` iterations starting
at slot index `i`. -/
def buildLoop : Nat → Nat → Mem → Mem
  | 0, _, m => m
  | n + 1, i, m =>
    buildLoop n (i + 1)
      (List.set m i
        (add_string (List.getD m (i - 1) []) (List.getD m (i - 2) []) (List.getD m i [])))

/-- Seeding plus the addition loop (slots 2 to k). -/
def buildTable (k : Nat) (m : Mem) : Mem := buildLoop (k - 1) 2 (seedTable m)

/-- `fib_sequence_string k` on initial slot contents `m`: returns the
bytes copied to the user buffer (without the trailing NUL) and the
returned length (`strlen` of the final slot). -/
def fib_sequence_string (k : Nat) (m : Mem) : List Nat × Nat :=
  let t := buildTable k m
  let s := List.getD t k []
  let size := (cstr s).length
  let s2 := reverse_string s (size - 1)
  (s2.take size, size)

/-- Number of slots kmalloc allocates: `sizeof(struct strbuf) * (k + 1)`. -/
def allocSlots (k : Nat) : Nat := k + 1

/-- Slot indices of the loop stores, in execution order. -/
def buildLoopWrites : Nat → Nat → List Nat
  | 0, _ => []
  | n + 1, i => i :: buildLoopWrites n (i + 1)

/-- Slot indices written by `fib_sequence_string`, in execution order:
the strncpy to slot 0, the strncpy to slot 1, then the loop stores to
slots 2..k. -/
def slotWrites (k : Nat) : List Nat := 0 :: 1 :: buildLoopWrites (k - 1) 2

/-! ### fib_device_lseek (lines 151-172) -/

/-- Two-complement wraparound of a signed 64-bit value (`loff_t`):
the representative of v modulo 2^64 lying in [-2^63, 2^63).  Kernel
modules are built with wrapping signed arithmetic, so the additions
and subtractions on `loff_t` below wrap at 64 bits. -/
def wrap64 (v : Int) : Int := (v + 2 ^ 63) % 2 ^ 64 - 2 ^ 63

/-- The position computed by the `switch (orig)` before clamping
(`new_pos` is initialised to 0, and there is no default case).  The
SEEK_CUR and SEEK_END arms perform 64-bit `loff_t` arithmetic, which
wraps; the SEEK_SET arm copies `offset` unchanged. -/
def lseekRaw (fpos offset : Int) (orig : Nat) : Int :=
  match orig with
  | 0 => offset
  | 1 => wrap64 (fpos + offset)
  | 2 => wrap64 (MAX_LENGTH - offset)
  | _ => 0

/-- `fib_device_lseek`: the raw position clamped from above to
`MAX_LENGTH`, then from below to 0; the result is stored into
`file->f_pos` and returned. -/
def fib_device_lseek (fpos offset : Int) (orig : Nat) : Int :=
  let p := lseekRaw fpos offset orig
  let p1 := if MAX_LENGTH < p then MAX_LENGTH else p
  if p1 < 0 then 0 else p1

/-! ### Reference values used in the statements -/

/-- Big-endian ASCII digit bytes of a number (the expected external
output format). -/
def digitsBE (n : Nat) : List Nat := (Nat.toDigits 10 n).map Char.toNat

/-- Numeric value of the decimal string held in a slot (little-endian
digits, read up to the NUL, through signed chars like the C code). -/
def strVal (s : List Nat) : Int :=
  (cstr s).foldr (fun d acc => (sbyte d - 48) + 10 * acc) 0

/-- All-zero initial slot contents (the lucky case for the driver). -/
def zeroMem (n : Nat) : Mem := List.replicate n (List.replicate strbufCapacity 0)

/-! ### Specification-side digit arithmetic

Reference schoolbook addition on little-endian digit lists (values
0..9), used to state what the byte-level loops of `add_string`
compute. -/

/-- Carry propagation through the remaining digits of the longer
operand (the reference for `addTail`). -/
def carryAdd : List Nat → Nat → List Nat × Nat
  | [], c => ([], c)
  | d :: l, c => ((d + c) % 10 :: (carryAdd l ((d + c) / 10)).1, (carryAdd l ((d + c) / 10)).2)

/-- Schoolbook addition of digit lists, first operand at least as
long (the reference for `addLoop`). -/
def pairAdd : List Nat → List Nat → Nat → List Nat × Nat
  | a :: l, b :: m, c =>
    ((a + b + c) % 10 :: (pairAdd l m ((a + b + c) / 10)).1, (pairAdd l m ((a + b + c) / 10)).2)
  | l, [], c => carryAdd l c
  | [], _ :: _, c => ([], c)

/-- ASCII encoding of a digit list. -/
def byteify (ds : List Nat) : List Nat := ds.map (fun d => d + 48)

/-- A digit string stored at the front of an otherwise zeroed slot. -/
def padSlot (l : List Nat) : List Nat := l ++ List.replicate (strbufCapacity - l.length) 0

/-- The digit string expected in table slot j: slot 0 is seeded with
the single digit 0, slot j holds the digits of F(j) (little-endian,
canonical). -/
def slotDigits (j : Nat) : List Nat :=
  if j = 0 then [0] else Nat.digits 10 (Nat.fib j)

/-- The slot contents the table builder produces on zeroed memory. -/
def expectedSlot (j : Nat) : List Nat := padSlot (byteify (slotDigits j))

/-- Invariant of the builder loop: slots below i are finished, slots
from i through k are still all-zero. -/
def tableOK (k i : Nat) (m : Mem) : Prop :=
  List.length m = k + 1 ∧ (∀ j, j < i → List.getD m j [] = expectedSlot j) ∧
    (∀ j, i ≤ j → j ≤ k → List.getD m j [] = List.replicate 128 0)

/-- The number whose most-significant-first bit string is `l`,
appended to the bits of `n` (specification device for the doubling
loop). -/
def pushBits (n : Nat) (l : List Bool) : Nat := l.foldl (fun m b => 2 * m + b.toNat) n

/-- Initial slot contents filled with the byte 0x39 (ASCII digit 9):
perfectly possible kmalloc leftovers. -/
def nineMem (n : Nat) : Mem := List.replicate n (List.replicate strbufCapacity 57)

/-! ### Helper lemmas: C integer primitives on in-range values -/

theorem int_tdiv_ten (a : Nat) : Int.tdiv (a : Int) (10 : Int) = ((a / 10 : Nat) : Int) := rfl

theorem int_tmod_ten (a : Nat) : Int.tmod (a : Int) (10 : Int) = ((a % 10 : Nat) : Int) := rfl

theorem sbyte_small {b : Nat} (h : b < 128) : sbyte b = (b : Int) := by
  simp [sbyte, h]

theorem toByte_coe {n : Nat} (h : n < 256) : toByte (n : Int) = n := by
  have h0 : (0 : Int) ≤ (n : Int) := Int.natCast_nonneg n
  have h1 : (n : Int) < 256 := by exact_mod_cast h
  simp [toByte, Int.emod_eq_of_lt h0 h1]

/-! ### Helper lemmas: the byte loops compute schoolbook addition -/

theorem digit_byte_sum (d : Nat) (c : Int) (hd : d < 10) :
    (sbyte (d + 48) - 48) + c = (d : Int) + c := by
  rw [sbyte_small (by omega)]
  push_cast
  ring

theorem digit_byte_out (s : Nat) :
    toByte (48 + ((s % 10 : Nat) : Int)) = s % 10 + 48 := by
  have h1 : (48 : Int) + ((s % 10 : Nat) : Int) = ((s % 10 + 48 : Nat) : Int) := by
    push_cast
    ring
  rw [h1, toByte_coe (by omega)]

theorem addTail_byteify (ds : List Nat) :
    ∀ c : Nat, (∀ d ∈ ds, d < 10) → c ≤ 1 →
      addTail (byteify ds) (c : Int) = (byteify (carryAdd ds c).1, ((carryAdd ds c).2 : Int)) := by
  induction ds with
  | nil => intro c _ _; rfl
  | cons d l ih =>
    intro c hd hc
    have hd0 : d < 10 := hd d (List.mem_cons_self _ _)
    have hdiv : (d + c) / 10 ≤ 1 := by omega
    have ihl := ih ((d + c) / 10) (fun x hx => hd x (List.mem_cons_of_mem _ hx)) hdiv
    have hsum : (sbyte (d + 48) - 48) + (c : Int) = ((d + c : Nat) : Int) := by
      rw [digit_byte_sum d _ hd0]; push_cast; ring
    simp only [byteify, List.map_cons, addTail, hsum, int_tdiv_ten, int_tmod_ten]
    rw [show addTail (List.map (fun d => d + 48) l) (((d + c) / 10 : Nat) : Int) =
        addTail (byteify l) (((d + c) / 10 : Nat) : Int) from rfl, ihl]
    simp only [carryAdd, byteify, List.map_cons, digit_byte_out, Nat.add_comm]

theorem addLoop_byteify (a : List Nat) :
    ∀ (b : List Nat) (c : Nat), (∀ d ∈ a, d < 10) → (∀ d ∈ b, d < 10) → c ≤ 1 →
      addLoop (byteify a) (byteify b) (c : Int) =
        (byteify (pairAdd a b c).1, ((pairAdd a b c).2 : Int)) := by
  induction a with
  | nil =>
    intro b c ha hb hc
    cases b with
    | nil => rfl
    | cons y m => simp [byteify, addLoop, pairAdd]
  | cons x l ih =>
    intro b c ha hb hc
    cases b with
    | nil => simpa [byteify, addLoop, pairAdd] using addTail_byteify (x :: l) c ha hc
    | cons y m =>
      have hx : x < 10 := ha x (List.mem_cons_self _ _)
      have hy : y < 10 := hb y (List.mem_cons_self _ _)
      have hdiv : (x + y + c) / 10 ≤ 1 := by omega
      have ihl := ih m ((x + y + c) / 10)
        (fun d hd => ha d (List.mem_cons_of_mem _ hd))
        (fun d hd => hb d (List.mem_cons_of_mem _ hd)) hdiv
      have hsum : (sbyte (x + 48) - 48) + (sbyte (y + 48) - 48) + (c : Int) =
          ((x + y + c : Nat) : Int) := by
        rw [sbyte_small (by omega), sbyte_small (by omega)]
        push_cast
        ring
      simp only [byteify, List.map_cons, addLoop, hsum, int_tdiv_ten, int_tmod_ten]
      rw [show addLoop (List.map (fun d => d + 48) l) (List.map (fun d => d + 48) m)
          (((x + y + c) / 10 : Nat) : Int) =
          addLoop (byteify l) (byteify m) (((x + y + c) / 10 : Nat) : Int) from rfl, ihl]
      simp only [pairAdd, byteify, List.map_cons, digit_byte_out, Nat.add_comm]

/-! ### Helper lemmas: the schoolbook reference adder is correct -/

theorem carryAdd_spec :
    ∀ (l : List Nat) (c : Nat), (∀ d ∈ l, d < 10) → c ≤ 1 →
      (carryAdd l c).1.length = l.length ∧ (∀ d ∈ (carryAdd l c).1, d < 10) ∧
        (carryAdd l c).2 ≤ 1 ∧
        Nat.ofDigits 10 (carryAdd l c).1 + (carryAdd l c).2 * 10 ^ l.length =
          Nat.ofDigits 10 l + c
  | [], c, _, hc => ⟨rfl, by simp [carryAdd], hc, by simp [carryAdd, Nat.ofDigits_nil]⟩
  | d :: l, c, hd, hc => by
    have hd0 : d < 10 := hd d (List.mem_cons_self _ _)
    have hdiv : (d + c) / 10 ≤ 1 := by omega
    obtain ⟨ih1, ih2, ih3, ih4⟩ :=
      carryAdd_spec l ((d + c) / 10) (fun x hx => hd x (List.mem_cons_of_mem _ hx)) hdiv
    refine ⟨by simp [carryAdd, ih1], ?_, by simpa [carryAdd] using ih3, ?_⟩
    · intro x hx
      rcases List.mem_cons.mp hx with h | h
      · omega
      · exact ih2 x h
    · simp only [carryAdd, Nat.ofDigits_cons, List.length_cons, pow_succ, Nat.cast_id]
      rcases Nat.le_one_iff_eq_zero_or_eq_one.mp ih3 with h2 | h2 <;>
        rw [h2] at ih4 ⊢ <;> omega

theorem pairAdd_spec :
    ∀ (a b : List Nat) (c : Nat), (∀ d ∈ a, d < 10) → (∀ d ∈ b, d < 10) → c ≤ 1 →
      b.length ≤ a.length →
      (pairAdd a b c).1.length = a.length ∧ (∀ d ∈ (pairAdd a b c).1, d < 10) ∧
        (pairAdd a b c).2 ≤ 1 ∧
        Nat.ofDigits 10 (pairAdd a b c).1 + (pairAdd a b c).2 * 10 ^ a.length =
          Nat.ofDigits 10 a + Nat.ofDigits 10 b + c
  | a, [], c, ha, _, hc, _ => by
    simpa [pairAdd, Nat.ofDigits_nil] using carryAdd_spec a c ha hc
  | x :: l, y :: m, c, ha, hb, hc, hlen => by
    have hx : x < 10 := ha x (List.mem_cons_self _ _)
    have hy : y < 10 := hb y (List.mem_cons_self _ _)
    have hdiv : (x + y + c) / 10 ≤ 1 := by omega
    obtain ⟨ih1, ih2, ih3, ih4⟩ := pairAdd_spec l m ((x + y + c) / 10)
      (fun d hd => ha d (List.mem_cons_of_mem _ hd))
      (fun d hd => hb d (List.mem_cons_of_mem _ hd)) hdiv (by simpa using hlen)
    refine ⟨by simp [pairAdd, ih1], ?_, by simpa [pairAdd] using ih3, ?_⟩
    · intro d hd
      rcases List.mem_cons.mp hd with h | h
      · omega
      · exact ih2 d h
    · simp only [pairAdd, Nat.ofDigits_cons, List.length_cons, pow_succ, Nat.cast_id]
      rcases Nat.le_one_iff_eq_zero_or_eq_one.mp ih3 with h2 | h2 <;>
        rw [h2] at ih4 ⊢ <;> omega
  | [], y :: m, _, _, _, _, hlen => by simp at hlen

/-! ### Helper lemmas: the digit string of a sum is canonical -/

theorem ofDigits_dropLast_of_getLast_eq_zero {l : List Nat} (hne : l ≠ [])
    (hz : l.getLast hne = 0) : Nat.ofDigits 10 l = Nat.ofDigits 10 l.dropLast := by
  conv_lhs => rw [← List.dropLast_append_getLast hne]
  rw [Nat.ofDigits_append, hz]
  simp [Nat.ofDigits_singleton]

theorem sum_digits_canonical (A : Nat) (hA : A ≠ 0) (bs : List Nat)
    (hbs : ∀ d ∈ bs, d < 10) (hlen : bs.length ≤ (Nat.digits 10 A).length) :
    Nat.digits 10 (A + Nat.ofDigits 10 bs) =
      (pairAdd (Nat.digits 10 A) bs 0).1 ++
        (if (pairAdd (Nat.digits 10 A) bs 0).2 = 0 then [] else [1]) := by
  have hten : (1 : Nat) < 10 := by norm_num
  have had : ∀ d ∈ Nat.digits 10 A, d < 10 := fun d hd => Nat.digits_lt_base hten hd
  obtain ⟨h1, h2, h3, h4⟩ := pairAdd_spec (Nat.digits 10 A) bs 0 had hbs (by norm_num) hlen
  rw [Nat.ofDigits_digits] at h4
  have hm1 : 1 ≤ (Nat.digits 10 A).length := by
    have : Nat.digits 10 A ≠ [] := Nat.digits_ne_nil_iff_ne_zero.mpr hA
    cases h : Nat.digits 10 A with
    | nil => exact absurd h this
    | cons d l => simp [h]
  have hlow : 10 ^ ((Nat.digits 10 A).length - 1) ≤ A := by
    have hb := Nat.base_pow_length_digits_le 10 A hten hA
    have hsplit : (10 : Nat) ^ (Nat.digits 10 A).length =
        10 * 10 ^ ((Nat.digits 10 A).length - 1) := by
      rw [← pow_succ']
      congr 1
      omega
    rw [hsplit] at hb
    exact Nat.le_of_mul_le_mul_left hb (by norm_num)
  rcases Nat.le_one_iff_eq_zero_or_eq_one.mp h3 with hcy | hcy
  · rw [hcy] at h4
    rw [if_pos hcy, List.append_nil]
    rw [show A + Nat.ofDigits 10 bs = Nat.ofDigits 10 (pairAdd (Nat.digits 10 A) bs 0).1 by omega]
    apply Nat.digits_ofDigits 10 hten _ h2
    intro hne
    intro hzero
    have hofd : Nat.ofDigits 10 (pairAdd (Nat.digits 10 A) bs 0).1 =
        Nat.ofDigits 10 (pairAdd (Nat.digits 10 A) bs 0).1.dropLast :=
      ofDigits_dropLast_of_getLast_eq_zero hne hzero
    have hup : Nat.ofDigits 10 (pairAdd (Nat.digits 10 A) bs 0).1.dropLast <
        10 ^ (pairAdd (Nat.digits 10 A) bs 0).1.dropLast.length := by
      refine Nat.ofDigits_lt_base_pow_length hten ?_
      intro x hx
      exact h2 x (List.dropLast_subset _ hx)
    have hlen2 : (pairAdd (Nat.digits 10 A) bs 0).1.dropLast.length =
        (Nat.digits 10 A).length - 1 := by
      rw [List.length_dropLast, h1]
    have hge : 10 ^ ((Nat.digits 10 A).length - 1) ≤
        Nat.ofDigits 10 (pairAdd (Nat.digits 10 A) bs 0).1 := by omega
    rw [hofd] at hge
    rw [hlen2] at hup
    omega
  · rw [hcy] at h4
    rw [if_neg (by rw [hcy]; exact one_ne_zero)]
    rw [show A + Nat.ofDigits 10 bs =
        Nat.ofDigits 10 ((pairAdd (Nat.digits 10 A) bs 0).1 ++ [1]) by
      rw [Nat.ofDigits_append, Nat.ofDigits_singleton, h1]
      omega]
    apply Nat.digits_ofDigits 10 hten
    · intro d hd
      rcases List.mem_append.mp hd with h | h
      · exact h2 d h
      · simp at h
        omega
    · intro h
      rw [List.getLast_append_singleton]
      exact one_ne_zero

/-! ### Helper lemmas: add_string on padded slots -/

theorem takeWhile_append_replicate_zero (l : List Nat) (n : Nat) (h : ∀ d ∈ l, d ≠ 0) :
    List.takeWhile (fun b => b != 0) (l ++ List.replicate n 0) = l := by
  induction l with
  | nil =>
    cases n with
    | zero => rfl
    | succ m => simp [List.replicate_succ, List.takeWhile_cons]
  | cons d t ih =>
    have hd : d ≠ 0 := h d (List.mem_cons_self _ _)
    simp only [List.cons_append, List.takeWhile_cons]
    rw [if_pos (by simp [hd])]
    rw [ih fun x hx => h x (List.mem_cons_of_mem _ hx)]

theorem cstr_padSlot (l : List Nat) (h : ∀ d ∈ l, d ≠ 0) : cstr (padSlot l) = l :=
  takeWhile_append_replicate_zero l _ h

theorem byteify_ne_zero (ds : List Nat) : ∀ d ∈ byteify ds, d ≠ 0 := by
  intro d hd
  simp only [byteify, List.mem_map] at hd
  obtain ⟨x, _, rfl⟩ := hd
  omega

theorem byteify_length (ds : List Nat) : (byteify ds).length = ds.length :=
  List.length_map _ _

theorem add_string_padSlot (xs ys : List Nat)
    (hxd : ∀ d ∈ xs, d < 10) (hyd : ∀ d ∈ ys, d < 10)
    (hlen : ys.length ≤ xs.length) (hcap : xs.length ≤ 126) :
    add_string (padSlot (byteify xs)) (padSlot (byteify ys)) (List.replicate 128 0) =
      padSlot (byteify
        ((pairAdd xs ys 0).1 ++ (if (pairAdd xs ys 0).2 = 0 then [] else [1]))) := by
  have hx0 := cstr_padSlot (byteify xs) (byteify_ne_zero xs)
  have hy0 := cstr_padSlot (byteify ys) (byteify_ne_zero ys)
  have hbl := addLoop_byteify xs ys 0 hxd hyd (by norm_num)
  obtain ⟨h1, _, h3, _⟩ := pairAdd_spec xs ys 0 hxd hyd (by norm_num) hlen
  have hylen : (byteify ys).length ≤ (byteify xs).length := by
    rw [byteify_length, byteify_length]; exact hlen
  have hmax : max (byteify xs).length (byteify ys).length = xs.length := by
    rw [byteify_length, byteify_length]; exact Nat.max_eq_left hlen
  have houtlen : (byteify (pairAdd xs ys 0).1).length = xs.length := by
    rw [byteify_length, h1]
  rw [Nat.cast_zero] at hbl
  have hbl1 : (addLoop (byteify xs) (byteify ys) 0).1 = byteify (pairAdd xs ys 0).1 := by
    rw [hbl]
  have hbl2 : (addLoop (byteify xs) (byteify ys) 0).2 = ((pairAdd xs ys 0).2 : Int) := by
    rw [hbl]
  have hdrop : (List.replicate 128 (0 : Nat)).drop (byteify (pairAdd xs ys 0).1).length =
      List.replicate (128 - xs.length) 0 := by
    rw [houtlen, List.drop_replicate]
  simp only [add_string, hx0, hy0, if_pos hylen, hmax, hbl1, hbl2, hdrop]
  rcases Nat.le_one_iff_eq_zero_or_eq_one.mp h3 with hcy | hcy
  · rw [if_neg (by simp [hcy] : ¬(((pairAdd xs ys 0).2 : Int) ≠ 0))]
    rw [if_pos hcy, List.append_nil]
    have hset : (byteify (pairAdd xs ys 0).1 ++ List.replicate (128 - xs.length) 0).set
        (xs.length + 1) 0 =
        byteify (pairAdd xs ys 0).1 ++ List.replicate (128 - xs.length) 0 := by
      rw [List.set_append]
      rw [if_neg (by omega)]
      rw [houtlen, List.set_replicate_self]
    rw [hset]
    simp [padSlot, strbufCapacity, houtlen]
  · rw [if_pos (by simp [hcy] : (((pairAdd xs ys 0).2 : Int) ≠ 0))]
    rw [if_neg (by rw [hcy]; exact one_ne_zero)]
    have hrep : (128 : Nat) - xs.length = (128 - xs.length - 1) + 1 := by omega
    have hset1 : (byteify (pairAdd xs ys 0).1 ++ List.replicate (128 - xs.length) 0).set
        xs.length 49 =
        byteify (pairAdd xs ys 0).1 ++ (49 :: List.replicate (128 - xs.length - 1) 0) := by
      rw [List.set_append, if_neg (by omega), houtlen, Nat.sub_self]
      rw [hrep, List.replicate_succ]
      rfl
    rw [hset1]
    have hset2 : (byteify (pairAdd xs ys 0).1 ++
        (49 :: List.replicate (128 - xs.length - 1) 0)).set (xs.length + 1) 0 =
        byteify (pairAdd xs ys 0).1 ++ (49 :: List.replicate (128 - xs.length - 1) 0) := by
      rw [List.set_append, if_neg (by omega), houtlen]
      rw [show xs.length + 1 - xs.length = 1 from by omega]
      rw [show (49 :: List.replicate (128 - xs.length - 1) (0 : Nat)).set 1 0 =
          49 :: (List.replicate (128 - xs.length - 1) (0 : Nat)).set 0 0 from rfl]
      rw [List.set_replicate_self]
    rw [hset2]
    simp only [padSlot, byteify, List.map_append, List.map_cons, List.map_nil, strbufCapacity]
    rw [List.length_append]
    simp only [List.length_map, h1, List.length_cons, List.length_nil]
    rw [show xs.length + (0 + 1) = xs.length + 1 from by omega]
    rw [show (128 : Nat) - (xs.length + 1) = 128 - xs.length - 1 from by omega]
    rw [List.append_assoc]
    rfl

/-! ### Helper lemmas: the table builder on zeroed memory -/

theorem getD_set_self {α : Type} (m : List α) (i : Nat) (v : α) (d : α)
    (h : i < m.length) : (m.set i v).getD i d = v := by
  rw [List.getD_eq_getElem?_getD, List.getElem?_set_eq_of_lt v h]
  rfl

theorem getD_set_ne {α : Type} (m : List α) (i j : Nat) (v : α) (d : α)
    (h : i ≠ j) : (m.set i v).getD j d = m.getD j d := by
  rw [List.getD_eq_getElem?_getD, List.getElem?_set_ne h, ← List.getD_eq_getElem?_getD]

theorem getD_replicate {α : Type} {n i : Nat} (h : i < n) (a d : α) :
    (List.replicate n a).getD i d = a := by
  rw [List.getD_eq_getElem?_getD, List.getElem?_replicate, if_pos h]
  rfl

theorem digits_len_mono {a b : Nat} (h : a ≤ b) :
    (Nat.digits 10 a).length ≤ (Nat.digits 10 b).length := by
  rcases Nat.eq_zero_or_pos a with rfl | ha
  · simp
  · have hb : b ≠ 0 := by omega
    rw [Nat.digits_len 10 a (by norm_num) (by omega), Nat.digits_len 10 b (by norm_num) hb]
    exact Nat.succ_le_succ (Nat.log_mono_right h)

theorem digits_ten_one : Nat.digits 10 1 = [1] := by
  rw [Nat.digits_def' (by norm_num : (1 : Nat) < 10) (by norm_num : (0 : Nat) < 1)]
  norm_num

theorem slotDigits_lt_ten (j : Nat) : ∀ d ∈ slotDigits j, d < 10 := by
  intro d hd
  by_cases h : j = 0
  · simp [slotDigits, h] at hd
    omega
  · simp only [slotDigits, if_neg h] at hd
    exact Nat.digits_lt_base (by norm_num) hd

theorem slotDigits_value (j : Nat) : Nat.ofDigits 10 (slotDigits j) = Nat.fib j := by
  by_cases h : j = 0
  · simp [slotDigits, h, Nat.ofDigits_singleton]
  · simp only [slotDigits, if_neg h, Nat.ofDigits_digits]

theorem slotDigits_length_le (j j2 : Nat) (hj : j ≤ j2) (hj1 : 1 ≤ j2) :
    (slotDigits j).length ≤ (slotDigits j2).length := by
  rw [show slotDigits j2 = Nat.digits 10 (Nat.fib j2) from by
    simp only [slotDigits, if_neg (by omega : ¬(j2 = 0))]]
  by_cases h : j = 0
  · have hf2 : 1 ≤ Nat.fib j2 := Nat.fib_pos.mpr (by omega)
    have hlen : (Nat.digits 10 1).length ≤ (Nat.digits 10 (Nat.fib j2)).length :=
      digits_len_mono hf2
    rw [digits_ten_one] at hlen
    rw [h, show slotDigits 0 = [0] from by simp [slotDigits]]
    simpa using hlen
  · rw [show slotDigits j = Nat.digits 10 (Nat.fib j) from by simp only [slotDigits, if_neg h]]
    exact digits_len_mono (Nat.fib_mono hj)

theorem fib_recurrence {i : Nat} (hi : 2 ≤ i) :
    Nat.fib i = Nat.fib (i - 1) + Nat.fib (i - 2) := by
  have h := @Nat.fib_add_two (i - 2)
  rw [show i - 2 + 2 = i from by omega, show i - 2 + 1 = i - 1 from by omega] at h
  omega

/-- One loop iteration: adding the two previous table entries into a
still-zeroed slot yields exactly the digit string of the next
Fibonacci number. -/
theorem add_string_expectedSlot {i : Nat} (hi : 2 ≤ i)
    (hcap : (slotDigits (i - 1)).length ≤ 126) :
    add_string (expectedSlot (i - 1)) (expectedSlot (i - 2)) (List.replicate 128 0) =
      expectedSlot i := by
  have hx : slotDigits (i - 1) = Nat.digits 10 (Nat.fib (i - 1)) := by
    simp only [slotDigits, if_neg (by omega : i - 1 ≠ 0)]
  have hfib1 : Nat.fib (i - 1) ≠ 0 := by
    have := Nat.fib_pos.mpr (by omega : 0 < i - 1)
    omega
  have hlen : (slotDigits (i - 2)).length ≤ (slotDigits (i - 1)).length :=
    slotDigits_length_le _ _ (by omega) (by omega)
  have hcap2 : (slotDigits (i - 1)).length ≤ 126 := hcap
  have hmain := add_string_padSlot (slotDigits (i - 1)) (slotDigits (i - 2))
    (slotDigits_lt_ten _) (slotDigits_lt_ten _) hlen hcap2
  rw [expectedSlot, expectedSlot, hmain]
  have hsum := sum_digits_canonical (Nat.fib (i - 1)) hfib1 (slotDigits (i - 2))
    (slotDigits_lt_ten _) (by rw [← hx]; exact hlen)
  rw [slotDigits_value] at hsum
  rw [← fib_recurrence hi] at hsum
  rw [expectedSlot]
  congr 1
  rw [show slotDigits i = Nat.digits 10 (Nat.fib i) from by
    simp only [slotDigits, if_neg (by omega : i ≠ 0)]]
  rw [hsum, hx]

theorem buildLoop_zeroInit (k : Nat) (hcap : (Nat.digits 10 (Nat.fib k)).length ≤ 126) :
    ∀ (n i : Nat) (m : Mem), 2 ≤ i → i + n = k + 1 → tableOK k i m →
      tableOK k (i + n) (buildLoop n i m) := by
  intro n
  induction n with
  | zero => intro i m _ _ h; exact h
  | succ n ih =>
    intro i m hi hin hok
    obtain ⟨hlen, hlow, hhigh⟩ := hok
    have hik : i ≤ k := by omega
    have hx : List.getD m (i - 1) [] = expectedSlot (i - 1) := hlow _ (by omega)
    have hy : List.getD m (i - 2) [] = expectedSlot (i - 2) := hlow _ (by omega)
    have hz : List.getD m i [] = List.replicate 128 0 := hhigh _ (le_refl i) hik
    have hcapi : (slotDigits (i - 1)).length ≤ 126 := by
      have h1 : (slotDigits (i - 1)).length ≤ (slotDigits k).length :=
        slotDigits_length_le _ _ (by omega) (by omega)
      have h2 : slotDigits k = Nat.digits 10 (Nat.fib k) := by
        simp only [slotDigits, if_neg (by omega : ¬(k = 0))]
      rw [h2] at h1
      omega
    have hstep : add_string (List.getD m (i - 1) []) (List.getD m (i - 2) [])
        (List.getD m i []) = expectedSlot i := by
      rw [hx, hy, hz]
      exact add_string_expectedSlot hi hcapi
    have hok2 : tableOK k (i + 1) (List.set m i (expectedSlot i)) := by
      refine ⟨by rw [List.length_set]; exact hlen, ?_, ?_⟩
      · intro j hj
        by_cases hji : j = i
        · rw [hji, getD_set_self _ _ _ _ (by omega)]
        · rw [getD_set_ne _ _ _ _ _ (by omega)]
          exact hlow _ (by omega)
      · intro j hj1 hj2
        rw [getD_set_ne _ _ _ _ _ (by omega)]
        exact hhigh _ (by omega) hj2
    have hfin := ih (i + 1) (List.set m i (expectedSlot i)) (by omega) (by omega) hok2
    rw [show i + (n + 1) = i + 1 + n from by omega]
    simp only [buildLoop, hstep]
    exact hfin

theorem seedTable_zeroInit (k : Nat) (hk : 1 ≤ k) :
    tableOK k 2 (seedTable (zeroMem (k + 1))) := by
  have hlen : List.length (zeroMem (k + 1)) = k + 1 := by
    simp [zeroMem, List.length_replicate]
  have h0 : List.getD (zeroMem (k + 1)) 0 [] = List.replicate 128 0 := by
    simp only [zeroMem, strbufCapacity]
    exact getD_replicate (by omega) _ _
  have hseed0 : strncpySeed (List.replicate 128 0) 48 = expectedSlot 0 := by
    rw [expectedSlot, show slotDigits 0 = [0] from by simp [slotDigits]]
    decide
  have hseed1 : strncpySeed (List.replicate 128 0) 49 = expectedSlot 1 := by
    rw [expectedSlot, show slotDigits 1 = [1] from by
      rw [slotDigits, if_neg one_ne_zero, Nat.fib_one, digits_ten_one]]
    decide
  have hm0 : List.getD (List.set (zeroMem (k + 1)) 0 (strncpySeed (List.getD
      (zeroMem (k + 1)) 0 []) 48)) 1 [] = List.replicate 128 0 := by
    rw [getD_set_ne _ _ _ _ _ (by omega)]
    simp only [zeroMem, strbufCapacity]
    exact getD_replicate (by omega) _ _
  refine ⟨?_, ?_, ?_⟩
  · simp [seedTable, List.length_set, hlen]
  · intro j hj
    interval_cases j
    · simp only [seedTable]
      rw [getD_set_ne _ _ _ _ _ (by omega)]
      rw [getD_set_self _ _ _ _ (by rw [hlen]; omega)]
      rw [h0, hseed0]
    · simp only [seedTable]
      rw [getD_set_self _ _ _ _ (by simp [List.length_set, hlen]; omega)]
      rw [hm0, hseed1]
  · intro j hj1 hj2
    simp only [seedTable]
    rw [getD_set_ne _ _ _ _ _ (by omega), getD_set_ne _ _ _ _ _ (by omega)]
    simp only [zeroMem, strbufCapacity]
    exact getD_replicate (by omega) _ _

theorem buildTable_zeroMem (k : Nat) (hk : 1 ≤ k)
    (hcap : (Nat.digits 10 (Nat.fib k)).length ≤ 126) :
    tableOK k (k + 1) (buildTable k (zeroMem (k + 1))) := by
  have h := buildLoop_zeroInit k hcap (k - 1) 2 (seedTable (zeroMem (k + 1)))
    (by omega) (by omega) (seedTable_zeroInit k hk)
  rw [show 2 + (k - 1) = k + 1 from by omega] at h
  exact h

/-! ### Helper lemmas: the XOR-swap reversal loop -/

theorem swapXor_length (l : List Nat) (i j : Nat) :
    (swapXor l i j).length = l.length := by
  simp [swapXor, List.length_set]

theorem swapXor_getD (l : List Nat) (i j : Nat) (hij : i ≠ j) (hi : i < l.length)
    (hj : j < l.length) (p : Nat) :
    (swapXor l i j).getD p 0 =
      l.getD (if p = i then j else if p = j then i else p) 0 := by
  have hxb : (l.getD i 0 ^^^ l.getD j 0) ^^^ l.getD j 0 = l.getD i 0 := by
    rw [Nat.xor_assoc, Nat.xor_self, Nat.xor_zero]
  have hxa : (l.getD i 0 ^^^ l.getD j 0) ^^^ l.getD i 0 = l.getD j 0 := by
    rw [Nat.xor_comm (l.getD i 0) (l.getD j 0), Nat.xor_assoc, Nat.xor_self, Nat.xor_zero]
  have h1i : (l.set i (l.getD i 0 ^^^ l.getD j 0)).getD i 0 = l.getD i 0 ^^^ l.getD j 0 :=
    getD_set_self _ _ _ _ hi
  have h1j : (l.set i (l.getD i 0 ^^^ l.getD j 0)).getD j 0 = l.getD j 0 :=
    getD_set_ne _ _ _ _ _ hij
  simp only [swapXor, h1i, h1j, hxb]
  have h2len : (l.set i (l.getD i 0 ^^^ l.getD j 0)).length = l.length := List.length_set _ _ _
  have h2i : ((l.set i (l.getD i 0 ^^^ l.getD j 0)).set j (l.getD i 0)).getD i 0 =
      l.getD i 0 ^^^ l.getD j 0 := by
    rw [getD_set_ne _ _ _ _ _ (fun h => hij h.symm), h1i]
  have h2j : ((l.set i (l.getD i 0 ^^^ l.getD j 0)).set j (l.getD i 0)).getD j 0 =
      l.getD i 0 := getD_set_self _ _ _ _ (by rw [h2len]; exact hj)
  simp only [h2i, h2j, hxa]
  by_cases hpi : p = i
  · rw [if_pos hpi, hpi]
    rw [getD_set_self _ _ _ _ (by rw [List.length_set, h2len]; exact hi)]
  · rw [if_neg hpi]
    by_cases hpj : p = j
    · rw [if_pos hpj, hpj]
      rw [getD_set_ne _ _ _ _ _ hij, getD_set_self _ _ _ _ (by rw [h2len]; exact hj)]
    · rw [if_neg hpj]
      rw [getD_set_ne _ _ _ _ _ (fun h => hpi h.symm),
        getD_set_ne _ _ _ _ _ (fun h => hpj h.symm),
        getD_set_ne _ _ _ _ _ (fun h => hpi h.symm)]

theorem revLoop_length (size : Nat) :
    ∀ (fuel i : Nat) (l : List Nat), (revLoop size fuel l i).length = l.length := by
  intro fuel
  induction fuel with
  | zero => intro i l; rfl
  | succ n ih =>
    intro i l
    simp only [revLoop]
    by_cases h : i < size - i
    · rw [if_pos h, ih, swapXor_length]
    · rw [if_neg h]

theorem revLoop_getD (size : Nat) :
    ∀ (fuel i : Nat) (l : List Nat), size - 2 * i < fuel → size < l.length →
      ∀ p, (revLoop size fuel l i).getD p 0 =
        l.getD (if i ≤ p ∧ p + i ≤ size then size - p else p) 0 := by
  intro fuel
  induction fuel with
  | zero => intro i l h _ p; exact absurd h (Nat.not_lt_zero _)
  | succ fuel ih =>
    intro i l hfuel hsz p
    simp only [revLoop]
    by_cases hcond : i < size - i
    · rw [if_pos hcond]
      have hne : i ≠ size - i := by omega
      have hi2 : i < l.length := by omega
      have hj2 : size - i < l.length := by omega
      rw [ih (i + 1) (swapXor l i (size - i)) (by omega) (by rw [swapXor_length]; exact hsz)]
      rw [swapXor_getD l i (size - i) hne hi2 hj2]
      by_cases h1 : i + 1 ≤ p ∧ p + (i + 1) ≤ size
      · rw [if_pos h1, if_neg (by omega), if_neg (by omega),
          if_pos (by omega : i ≤ p ∧ p + i ≤ size)]
      · rw [if_neg h1]
        by_cases hpi : p = i
        · rw [if_pos hpi, if_pos (by omega : i ≤ p ∧ p + i ≤ size), hpi]
        · rw [if_neg hpi]
          by_cases hpj : p = size - i
          · rw [if_pos hpj, if_pos (by omega : i ≤ p ∧ p + i ≤ size), hpj,
              show size - (size - i) = i from by omega]
          · rw [if_neg hpj, if_neg (by omega : ¬(i ≤ p ∧ p + i ≤ size))]
    · rw [if_neg hcond]
      by_cases hseg : i ≤ p ∧ p + i ≤ size
      · rw [if_pos hseg, show size - p = p from by omega]
      · rw [if_neg hseg]

/-- The reversal as invoked by the driver, on a buffer whose semantic
string occupies a prefix: the prefix is reversed in place, the bytes
after it stay put. -/
theorem reverse_string_padded (u rest : List Nat) (hu : u ≠ []) :
    reverse_string (u ++ rest) (u.length - 1) = u.reverse ++ rest := by
  have hul : 1 ≤ u.length := List.length_pos.mpr hu
  have hlen : (reverse_string (u ++ rest) (u.length - 1)).length = (u ++ rest).length := by
    rw [reverse_string, revLoop_length]
  apply List.ext_getElem
  · rw [hlen]
    simp [List.length_append, List.length_reverse]
  · intro n h1 h2
    have hn : n < (u ++ rest).length := by rw [← hlen]; exact h1
    have hgd : (reverse_string (u ++ rest) (u.length - 1)).getD n 0 =
        (u ++ rest).getD (if 0 ≤ n ∧ n + 0 ≤ u.length - 1 then u.length - 1 - n else n) 0 := by
      rw [reverse_string]
      exact revLoop_getD (u.length - 1) (u.length - 1 + 1) 0 (u ++ rest) (by omega)
        (by rw [List.length_append]; omega) n
    rw [← List.getD_eq_getElem _ 0 h1, hgd]
    by_cases hcase : n < u.length
    · rw [if_pos (by omega)]
      have hidx : u.length - 1 - n < u.length := by omega
      have hidx2 : u.length - 1 - n < (u ++ rest).length := by
        rw [List.length_append]; omega
      rw [List.getD_eq_getElem _ 0 hidx2, List.getElem_append_left hidx]
      have hrev : n < u.reverse.length := by rw [List.length_reverse]; exact hcase
      rw [List.getElem_append_left hrev, List.getElem_reverse]
    · rw [if_neg (by omega)]
      rw [List.getD_eq_getElem _ 0 hn, List.getElem_append_right (by omega)]
      rw [List.getElem_append_right (by rw [List.length_reverse]; omega)]
      congr 1
      rw [List.length_reverse]

/-! ### Helper: end-to-end behaviour of the decimal engine on zeroed
memory -/

theorem fib_sequence_string_zeroMem (k : Nat) (hk : 1 ≤ k)
    (hcap : (Nat.digits 10 (Nat.fib k)).length ≤ 126) :
    fib_sequence_string k (zeroMem (k + 1)) =
      ((byteify (Nat.digits 10 (Nat.fib k))).reverse, (Nat.digits 10 (Nat.fib k)).length) := by
  obtain ⟨hlen, hlow, hhigh⟩ := buildTable_zeroMem k hk hcap
  have hslot : List.getD (buildTable k (zeroMem (k + 1))) k [] = expectedSlot k :=
    hlow k (by omega)
  have hds : slotDigits k = Nat.digits 10 (Nat.fib k) := by
    simp only [slotDigits, if_neg (by omega : ¬(k = 0))]
  have hfibk : Nat.fib k ≠ 0 := by
    have := Nat.fib_pos.mpr (by omega : 0 < k)
    omega
  have hne : byteify (Nat.digits 10 (Nat.fib k)) ≠ [] := by
    have h1 : Nat.digits 10 (Nat.fib k) ≠ [] := Nat.digits_ne_nil_iff_ne_zero.mpr hfibk
    simp only [byteify, ne_eq, List.map_eq_nil_iff]
    exact h1
  have hL : (byteify (Nat.digits 10 (Nat.fib k))).length =
      (Nat.digits 10 (Nat.fib k)).length := byteify_length _
  have hcstr : cstr (expectedSlot k) = byteify (Nat.digits 10 (Nat.fib k)) := by
    rw [expectedSlot, hds]
    exact cstr_padSlot _ (byteify_ne_zero _)
  have hpad : expectedSlot k = byteify (Nat.digits 10 (Nat.fib k)) ++
      List.replicate (strbufCapacity - (byteify (Nat.digits 10 (Nat.fib k))).length) 0 := by
    rw [expectedSlot, hds, padSlot]
  simp only [fib_sequence_string, hslot, hcstr, hL]
  rw [hpad, show (Nat.digits 10 (Nat.fib k)).length - 1 =
    (byteify (Nat.digits 10 (Nat.fib k))).length - 1 from by rw [hL]]
  rw [reverse_string_padded _ _ hne]
  rw [show (Nat.digits 10 (Nat.fib k)).length =
    (byteify (Nat.digits 10 (Nat.fib k))).reverse.length from by
      rw [List.length_reverse, hL]]
  rw [List.take_left]

theorem digits_fib_501_len : (Nat.digits 10 (Nat.fib 501)).length = 105 := by
  have hfib : Nat.fib 501 ≠ 0 := by
    have := Nat.fib_pos.mpr (by norm_num : 0 < 501)
    omega
  rw [Nat.digits_len 10 _ (by norm_num) hfib]
  have h1 : 10 ^ 104 ≤ Nat.fib 501 := by decide
  have h2 : Nat.fib 501 < 10 ^ (104 + 1) := by decide
  rw [Nat.log_eq_of_pow_le_of_lt_pow h1 h2]

/-! ### Helper lemmas: the fast-doubling loop computes fib mod 2^64 -/

theorem fibStep_cast (n : Nat) (b : Bool) :
    fibStep (((Nat.fib n : Nat) : ZMod (2 ^ 64)), ((Nat.fib (n + 1) : Nat) : ZMod (2 ^ 64))) b =
      (((Nat.fib (2 * n + b.toNat) : Nat) : ZMod (2 ^ 64)),
        ((Nat.fib (2 * n + b.toNat + 1) : Nat) : ZMod (2 ^ 64))) := by
  have hle : Nat.fib n ≤ 2 * Nat.fib (n + 1) :=
    le_trans Nat.fib_le_fib_succ (by omega)
  have ht1 : ((Nat.fib n : Nat) : ZMod (2 ^ 64)) *
      (2 * ((Nat.fib (n + 1) : Nat) : ZMod (2 ^ 64)) - ((Nat.fib n : Nat) : ZMod (2 ^ 64))) =
      ((Nat.fib (2 * n) : Nat) : ZMod (2 ^ 64)) := by
    rw [Nat.fib_two_mul, Nat.cast_mul, Nat.cast_sub hle]
    push_cast
    ring
  have ht2 : ((Nat.fib (n + 1) : Nat) : ZMod (2 ^ 64)) * ((Nat.fib (n + 1) : Nat) : ZMod (2 ^ 64)) +
      ((Nat.fib n : Nat) : ZMod (2 ^ 64)) * ((Nat.fib n : Nat) : ZMod (2 ^ 64)) =
      ((Nat.fib (2 * n + 1) : Nat) : ZMod (2 ^ 64)) := by
    rw [Nat.fib_two_mul_add_one]
    push_cast
    ring
  cases b with
  | false =>
    simp only [fibStep, Bool.toNat_false, Nat.add_zero, if_neg Bool.false_ne_true]
    rw [ht1, ht2]
  | true =>
    simp only [fibStep, Bool.toNat_true, if_true]
    rw [ht1, ht2]
    have hsum : ((Nat.fib (2 * n) : Nat) : ZMod (2 ^ 64)) +
        ((Nat.fib (2 * n + 1) : Nat) : ZMod (2 ^ 64)) =
        ((Nat.fib (2 * n + 1 + 1) : Nat) : ZMod (2 ^ 64)) := by
      rw [show 2 * n + 1 + 1 = 2 * n + 2 from rfl, Nat.fib_add_two]
      push_cast
      ring
    rw [hsum]

theorem foldl_fibStep (l : List Bool) :
    ∀ n : Nat, l.foldl fibStep
        (((Nat.fib n : Nat) : ZMod (2 ^ 64)), ((Nat.fib (n + 1) : Nat) : ZMod (2 ^ 64))) =
      (((Nat.fib (pushBits n l) : Nat) : ZMod (2 ^ 64)),
        ((Nat.fib (pushBits n l + 1) : Nat) : ZMod (2 ^ 64))) := by
  induction l with
  | nil => intro n; rfl
  | cons b t ih =>
    intro n
    rw [List.foldl_cons, fibStep_cast]
    exact ih (2 * n + b.toNat)

theorem pushBits_append_bit (n : Nat) (l0 : List Bool) (b : Bool) :
    pushBits n (l0 ++ [b]) = 2 * pushBits n l0 + b.toNat := by
  simp [pushBits, List.foldl_append]

theorem pushBits_toBits :
    ∀ (f k n : Nat), k < 2 ^ f →
      pushBits n ((toBits f k).reverse) = n * 2 ^ (toBits f k).length + k := by
  intro f
  induction f with
  | zero =>
    intro k n h
    have hk : k = 0 := by omega
    subst hk
    simp [toBits, pushBits]
  | succ f ih =>
    intro k n h
    by_cases hk : k = 0
    · subst hk
      simp [toBits, pushBits]
    · simp only [toBits, if_neg hk]
      rw [List.reverse_cons, pushBits_append_bit]
      rw [ih (k / 2) n (by omega)]
      have hb : (decide (k % 2 = 1)).toNat = k % 2 := by
        rcases Nat.mod_two_eq_zero_or_one k with h2 | h2 <;> simp [h2]
      have hk2 : 2 * (k / 2) + k % 2 = k := Nat.div_add_mod k 2
      rw [hb, List.length_cons, pow_succ]
      calc 2 * (n * 2 ^ (toBits f (k / 2)).length + k / 2) + k % 2 =
          n * (2 ^ (toBits f (k / 2)).length * 2) + (2 * (k / 2) + k % 2) := by ring
      _ = n * (2 ^ (toBits f (k / 2)).length * 2) + k := by rw [hk2]

/-- The fast-doubling engine computes the Fibonacci number reduced
modulo the 64-bit word, for every index in the signed 64-bit range. -/
theorem fib_sequence_eq (k : Nat) (h : k < 2 ^ 64) :
    fib_sequence k = ((Nat.fib k : Nat) : ZMod (2 ^ 64)) := by
  by_cases hk : k < 2
  · rw [fib_sequence, if_pos hk]
    interval_cases k
    · simp
    · simp
  · rw [fib_sequence, if_neg hk]
    have h0 : ((0 : ZMod (2 ^ 64)), (1 : ZMod (2 ^ 64))) =
        (((Nat.fib 0 : Nat) : ZMod (2 ^ 64)), ((Nat.fib (0 + 1) : Nat) : ZMod (2 ^ 64))) := by
      norm_num
    rw [h0, foldl_fibStep]
    have hpush : pushBits 0 ((toBits 64 k).reverse) = k := by
      rw [pushBits_toBits 64 k 0 h]
      ring
    rw [hpush]

/-! ### Commutativity of the adder -/

theorem addLoop_comm : ∀ (a b : List Nat) (c : Int), a.length = b.length →
    addLoop a b c = addLoop b a c
  | [], [], _, _ => rfl
  | p :: l, q :: m, c, h => by
    simp only [addLoop]
    have hs : sbyte p - 48 + (sbyte q - 48) + c = sbyte q - 48 + (sbyte p - 48) + c := by
      ring
    rw [hs, addLoop_comm l m _ (by simpa using h)]
  | [], _ :: _, _, h => by simp at h
  | _ :: _, [], _, h => by simp at h

/-! ### Claim theorems -/

/-- C1: on zero-filled allocations the decimal engine produces the
exact big-endian decimal string of F(k) with its digit length,
matching every boundary value of the specification (0, 1, 2, 10, 20
and the 21-digit F(100)); but on an allocation whose leftover bytes
are 0x39 the same call at k = 3 returns the three-byte string "992"
instead of "2", because add_string leaves the byte at index max(m,n)
of the destination slot unset when no final carry occurs.  The
specified behaviour therefore fails on non-zeroed kmalloc memory. -/
theorem fib_sequence_string_values_and_junk :
    fib_sequence_string 0 (zeroMem 1) = ([48], 1) ∧
    fib_sequence_string 1 (zeroMem 2) = ([49], 1) ∧
    fib_sequence_string 2 (zeroMem 3) = ([49], 1) ∧
    fib_sequence_string 10 (zeroMem 11) = ([53, 53], 2) ∧
    fib_sequence_string 20 (zeroMem 21) = ([54, 55, 54, 53], 4) ∧
    fib_sequence_string 100 (zeroMem 101) = (digitsBE 354224848179261915075, 21) ∧
    fib_sequence_string 3 (nineMem 4) = ([57, 57, 50], 3) ∧
    digitsBE (Nat.fib 3) = [50] := by
  exact ⟨by decide, by decide, by decide, by decide, by decide, by decide, by decide, by decide⟩

/-- C2: the adder violates its length contract on a destination with
nonzero leftover bytes: adding "1" and "0" (no carry, max(m,n) = 1)
into a slot whose byte 1 is 0x39 yields a string of length 2 with a
junk second digit, because the terminator is stored at index max+1
while index max is left untouched. -/
theorem add_string_length_contract_fails :
    cstr (add_string [49, 0] [48, 0] [57, 57, 57, 57]) = [49, 57] ∧
    (cstr (add_string [49, 0] [48, 0] [57, 57, 57, 57])).length = 2 ∧
    max (cstr [49, 0]).length (cstr [48, 0]).length = 1 ∧
    (addLoop (cstr [49, 0]) (cstr [48, 0]) 0).2 = 0 := by
  exact ⟨by decide, by decide, by decide, by decide⟩

/-- C3: on a 0x39-filled allocation the table entry 2 decodes to the
value 91 (string "19"), not to the exact sum 1 + 0 of entries 1 and 0:
the invariant that entry i equals the big-decimal sum of its two
predecessors fails on non-zeroed memory. -/
theorem table_entry_not_sum_of_predecessors :
    strVal (List.getD (buildTable 2 (nineMem 3)) 0 []) = 0 ∧
    strVal (List.getD (buildTable 2 (nineMem 3)) 1 []) = 1 ∧
    strVal (List.getD (buildTable 2 (nineMem 3)) 2 []) = 91 ∧
    (91 : Int) ≠ 1 + 0 := by
  exact ⟨by decide, by decide, by decide, by decide⟩

/-- C4: the fast-doubling scalar engine equals F(k) reduced modulo the
native 64-bit word for every index in the nonnegative long long
domain; in particular fib_sequence 50 = 12586269025, and for k < 2 the
index itself is returned without entering the doubling loop. -/
theorem fib_sequence_matches_fib_mod_word :
    (∀ k : Nat, k < 2 ^ 63 → fib_sequence k = ((Nat.fib k : Nat) : ZMod (2 ^ 64))) ∧
    fib_sequence 50 = 12586269025 ∧
    (∀ k : Nat, k < 2 → fib_sequence k = (k : ZMod (2 ^ 64))) := by
  refine ⟨?_, ?_, ?_⟩
  · intro k hk
    exact fib_sequence_eq k (lt_trans hk (by norm_num))
  · decide
  · intro k hk
    rw [fib_sequence, if_pos hk]

/-- Witness for C4 at concrete inputs. -/
theorem fib_sequence_matches_fib_mod_word_witness :
    (50 : Nat) < 2 ^ 63 ∧ fib_sequence 50 = ((Nat.fib 50 : Nat) : ZMod (2 ^ 64)) ∧
    (1 : Nat) < 2 ∧ fib_sequence 1 = ((1 : Nat) : ZMod (2 ^ 64)) :=
  ⟨by norm_num, fib_sequence_matches_fib_mod_word.1 50 (by norm_num), by norm_num,
    fib_sequence_matches_fib_mod_word.2.2 1 (by norm_num)⟩

/-- C5: the output formatter, as invoked by the driver with the last
index size - 1, reverses the buffer over the full semantic length n:
every position i < n receives the digit from position n - 1 - i
(including the most significant digit), positions past the string are
untouched, and a single-digit string is unchanged. -/
theorem reverse_string_call_is_full_reversal :
    ∀ (l : List Nat) (n : Nat), 0 < n → n ≤ l.length →
      ((∀ i, i < n → (reverse_string l (n - 1)).getD i 0 = l.getD (n - 1 - i) 0) ∧
        (∀ i, n ≤ i → (reverse_string l (n - 1)).getD i 0 = l.getD i 0) ∧
        (reverse_string l (n - 1)).length = l.length ∧
        (n = 1 → reverse_string l (n - 1) = l)) := by
  intro l n hn hnl
  refine ⟨?_, ?_, ?_, ?_⟩
  · intro i hi
    rw [reverse_string, revLoop_getD (n - 1) (n - 1 + 1) 0 l (by omega) (by omega) i]
    rw [if_pos (by omega : 0 ≤ i ∧ i + 0 ≤ n - 1)]
  · intro i hi
    rw [reverse_string, revLoop_getD (n - 1) (n - 1 + 1) 0 l (by omega) (by omega) i]
    rw [if_neg (by omega : ¬(0 ≤ i ∧ i + 0 ≤ n - 1))]
  · rw [reverse_string, revLoop_length]
  · intro h1
    rw [h1]
    simp [reverse_string, revLoop]

/-- Witness for C5 at a concrete three-byte buffer. -/
theorem reverse_string_call_is_full_reversal_witness :
    0 < 3 ∧ 3 ≤ ([1, 2, 3] : List Nat).length ∧
      (reverse_string [1, 2, 3] 2).getD 0 0 = ([1, 2, 3] : List Nat).getD 2 0 :=
  ⟨by norm_num, by decide,
    (reverse_string_call_is_full_reversal [1, 2, 3] 3 (by norm_num) (by decide)).1 0
      (by norm_num)⟩

/-- C6: the adder is commutative: swapping the two input strings
produces identical output slot contents, whatever the previous
contents of the destination. -/
theorem add_string_comm :
    ∀ x y next : List Nat, add_string x y next = add_string y x next := by
  intro x y next
  by_cases h : (cstr y).length ≤ (cstr x).length
  · by_cases h2 : (cstr x).length ≤ (cstr y).length
    · have heq : (cstr x).length = (cstr y).length := le_antisymm h2 h
      simp only [add_string, if_pos h, if_pos h2]
      rw [addLoop_comm _ _ 0 heq, Nat.max_comm ((cstr x).length) ((cstr y).length)]
    · simp only [add_string, if_pos h, if_neg h2]
      rw [Nat.max_comm ((cstr x).length) ((cstr y).length)]
  · have h2 : (cstr x).length ≤ (cstr y).length := by omega
    simp only [add_string, if_neg h, if_pos h2]
    rw [Nat.max_comm ((cstr x).length) ((cstr y).length)]

/-- Witness for C6 at concrete buffers. -/
theorem add_string_comm_witness :
    add_string [49, 0] [50, 51, 0] [0, 0, 0, 0, 0] =
      add_string [50, 51, 0] [49, 0] [0, 0, 0, 0, 0] :=
  add_string_comm [49, 0] [50, 51, 0] [0, 0, 0, 0, 0]

/-- C7: there is no capacity check on the decimal path: at k = 501,
one past MAX_LENGTH = 500, fib_sequence_string computes and returns a
normal 105-digit result (no error of any kind), instead of failing
with a capacity error. -/
theorem no_capacity_error_past_max :
    MAX_LENGTH < (501 : Int) ∧ (fib_sequence_string 501 (zeroMem 502)).2 = 105 := by
  constructor
  · rw [MAX_LENGTH]; norm_num
  · rw [show (502 : Nat) = 501 + 1 from rfl,
      fib_sequence_string_zeroMem 501 (by norm_num)
        (by rw [digits_fib_501_len]; norm_num)]
    rw [digits_fib_501_len]

/-- C8: there is no k < 2 special case: for k = 0 the builder
allocates one slot but still strncpy-writes slot 1, which lies one
slot past the allocation. -/
theorem builder_writes_outside_allocation_for_k0 :
    slotWrites 0 = [0, 1] ∧ allocSlots 0 = 1 ∧ 1 ∈ slotWrites 0 ∧
      ¬(1 < allocSlots 0) := by
  exact ⟨by decide, by decide, by decide, by decide⟩

/-- C9 counterexample: the claim as stated (exact arithmetic) fails on
the code.  At SEEK_END with the INT64_MIN offset the request resolves,
in exact arithmetic, to MAX_LENGTH + 2^63, far above MAX_LENGTH, so
the claim demands the result MAX_LENGTH; but the 64-bit loff_t
subtraction MAX_LENGTH - offset wraps negative and the handler clamps
to 0.  The from-end arm therefore does not compute MAX_LENGTH minus
the offset in the exact sense either. -/
theorem lseek_end_min_offset_wraps :
    MAX_LENGTH < MAX_LENGTH - (-(2 ^ 63) : Int) ∧
    lseekRaw 0 (-(2 ^ 63)) 2 ≠ MAX_LENGTH - (-(2 ^ 63)) ∧
    fib_device_lseek 0 (-(2 ^ 63)) 2 = 0 ∧
    (0 : Int) ≠ MAX_LENGTH := by
  exact ⟨by decide, by decide, by decide, by decide⟩

/-- C9, amended to 64-bit loff_t arithmetic: the lseek handler
saturates the resulting position into [0, MAX_LENGTH] in every
positioning mode: a request whose wrapped 64-bit resolution is below 0
yields 0, one whose wrapped resolution is above MAX_LENGTH yields
MAX_LENGTH, anything in between is taken as is, and the from-end mode
computes the 64-bit wrap of MAX_LENGTH - offset before clamping. -/
theorem fib_device_lseek_saturates :
    ∀ (fpos offset : Int) (orig : Nat),
      (0 ≤ fib_device_lseek fpos offset orig ∧
        fib_device_lseek fpos offset orig ≤ MAX_LENGTH) ∧
      (lseekRaw fpos offset orig < 0 → fib_device_lseek fpos offset orig = 0) ∧
      (MAX_LENGTH < lseekRaw fpos offset orig →
        fib_device_lseek fpos offset orig = MAX_LENGTH) ∧
      (0 ≤ lseekRaw fpos offset orig → lseekRaw fpos offset orig ≤ MAX_LENGTH →
        fib_device_lseek fpos offset orig = lseekRaw fpos offset orig) ∧
      (orig = 2 → lseekRaw fpos offset orig = wrap64 (MAX_LENGTH - offset)) := by
  intro fpos offset orig
  refine ⟨?_, ?_, ?_, ?_, ?_⟩
  · simp only [fib_device_lseek, MAX_LENGTH]
    split_ifs <;> omega
  · intro h
    simp only [fib_device_lseek, MAX_LENGTH] at h ⊢
    split_ifs <;> omega
  · intro h
    simp only [fib_device_lseek, MAX_LENGTH] at h ⊢
    split_ifs <;> omega
  · intro h1 h2
    simp only [fib_device_lseek, MAX_LENGTH] at h1 h2 ⊢
    split_ifs <;> omega
  · intro h
    rw [h]
    rfl

/-- Witness for C9 at concrete positions covering both clamps and the
from-end mode. -/
theorem fib_device_lseek_saturates_witness :
    lseekRaw 0 (-7) 0 < 0 ∧ fib_device_lseek 0 (-7) 0 = 0 ∧
      MAX_LENGTH < lseekRaw 3 700 1 ∧ fib_device_lseek 3 700 1 = MAX_LENGTH ∧
      lseekRaw 0 30 2 = wrap64 (MAX_LENGTH - 30) :=
  ⟨by decide, (fib_device_lseek_saturates 0 (-7) 0).2.1 (by decide), by decide,
    (fib_device_lseek_saturates 3 700 1).2.2.1 (by decide),
    (fib_device_lseek_saturates 0 30 2).2.2.2.2 rfl⟩

/-- C10: the decimal compute operation is not independent of prior
memory contents: at k = 3 a zero-filled allocation yields "2" (length
1) while a 0x39-filled allocation yields "992" (length 3), so two
calls with the same k can return different outputs. -/
theorem fib_sequence_string_depends_on_memory :
    fib_sequence_string 3 (zeroMem 4) = ([50], 1) ∧
    fib_sequence_string 3 (nineMem 4) = ([57, 57, 50], 3) ∧
    fib_sequence_string 3 (zeroMem 4) ≠ fib_sequence_string 3 (nineMem 4) := by
  exact ⟨by decide, by decide, by decide⟩

end Fibdrv
